import Mathlib

/-!
# Verification of the zero-dependency Node CRUD store

Shallow embedding of the resource store and persistence contract of the
repository `zero-dependency-node-crud` (files `app.js` and
`utils/fileHandler.js`), together with proofs of the specification claims.

Modelling conventions:

* A JS user object is modelled by `Record`: a dedicated integer `id`
  (assigned by `createUser`), the required `name` string, and the remaining
  client-submitted fields `extra` kept verbatim as an ordered key/value list
  of scalar JSON values (`JVal`).
* A parsed request body is a `Payload`: an optional `name` (absent models a
  missing `name` property; the JS truthiness test `!newUser.name` on a string
  rejects exactly the absent and the empty name) plus the extra fields.
* Each handler returns an `OpResult`: the HTTP-level response
  (`Except ApiError α`), the collection after the call, and the ordered list
  of `writeData` calls it performed (each carrying the persisted collection).
* The backing store (`users.json`) is a `FileState`: absent, or present with
  a content string; `readData` / `writeData` are translated from
  `utils/fileHandler.js`, with `JSON.parse` / `JSON.stringify(·, null, 2)`
  modelled character-exactly for the persisted collection format by
  `parseRecords` / `serializeRecords` below.
-/

/-- Scalar JSON values carried by the extra fields of a record. -/
inductive JVal : Type where
  | jstr (s : String)
  | jint (n : Int)
  | jbool (b : Bool)
  | jnull
deriving DecidableEq, Repr

/-- A user object held in the `users` array: required `name`, the other
client-submitted fields in insertion order, and the server-assigned `id`
(`newUser.id = maxId + 1` in `app.js` assigns it after the body's own
fields, so it is serialized last). -/
structure Record : Type where
  name : String
  extra : List (String × JVal)
  id : Int
deriving DecidableEq, Repr

/-- A parsed request body: `name` is `none` when the property is missing;
`extra` holds every other property verbatim. -/
structure Payload : Type where
  name : Option String
  extra : List (String × JVal)
deriving DecidableEq, Repr

/-- The error taxonomy surfaced by the route handlers (spec section 7). -/
inductive ApiError : Type where
  | NotFound
  | ValidationError
deriving DecidableEq, Repr

instance {ε α : Type} [DecidableEq ε] [DecidableEq α] :
    DecidableEq (Except ε α) := fun a b =>
  match a, b with
  | .error e, .error f =>
    if h : e = f then isTrue (by rw [h])
    else isFalse (fun hc => by cases hc; exact h rfl)
  | .error _, .ok _ => isFalse (fun hc => by cases hc)
  | .ok _, .error _ => isFalse (fun hc => by cases hc)
  | .ok a, .ok b =>
    if h : a = b then isTrue (by rw [h])
    else isFalse (fun hc => by cases hc; exact h rfl)

/-- Result of one route-handler call: the response, the collection after the
call, and the arguments of the `writeData` calls made, in order. -/
structure OpResult (α : Type) : Type where
  response : Except ApiError α
  users : List Record
  writes : List (List Record)
deriving DecidableEq, Repr

/-- JS truthiness of `newUser.name` for a string-or-missing name: the guard
`if (!newUser.name)` in `createUser` / `updateUser` rejects exactly a missing
or an empty name. -/
def validName : Option String → Bool
  | none => false
  | some s => s != ""

/-- Translation of `users.reduce((max, user) => Math.max(max, user.id), 0)`
from `createUser` in `app.js`: left fold of `max` over the ids, seeded 0. -/
def maxId (users : List Record) : Int :=
  users.foldl (fun m u => max m u.id) 0

/-- Translation of `users.find(u => u.id === id)` (`getUserById`): linear
scan returning the first record whose id equals the argument. -/
def findUser (id : Int) : List Record → Option Record
  | [] => none
  | u :: us => if u.id == id then some u else findUser id us

/-- Translation of `users.findIndex(u => u.id === id)` (`updateUser`,
`deleteUser`): index of the first record whose id equals the argument
(`none` models JS `-1`). -/
def findIndex (id : Int) : List Record → Option Nat
  | [] => none
  | u :: us => if u.id == id then some 0 else (findIndex id us).map (· + 1)

/-- Translation of `getUserById` in `app.js`: 200 with the found record, or
404 `User Not Found`. -/
def getUserById (users : List Record) (id : Int) : Except ApiError Record :=
  match findUser id users with
  | some u => .ok u
  | none => .error .NotFound

/-- Translation of `getAllUsers` in `app.js`: 200 with the full collection. -/
def getAllUsers (users : List Record) : List Record :=
  users

/-- Translation of `createUser` in `app.js`: reject a missing/empty name with
400, otherwise assign `maxId + 1` as the id, push the record, persist the
full collection, and answer 201 with the created record. -/
def createUser (users : List Record) (p : Payload) : OpResult Record :=
  match p.name with
  | none => ⟨.error .ValidationError, users, []⟩
  | some nm =>
    if nm = "" then ⟨.error .ValidationError, users, []⟩
    else
      let r : Record := ⟨nm, p.extra, maxId users + 1⟩
      let users' := users ++ [r]
      ⟨.ok r, users', [users']⟩

/-- Translation of `updateUser` in `app.js`: 404 when `findIndex` misses,
then 400 on a missing/empty name, otherwise mutate `users[userIndex].name`
in place, persist, and answer 200 with the mutated record. The inner `none`
branch is unreachable: `findIndex` always returns an in-bounds index. -/
def updateUser (users : List Record) (id : Int) (p : Payload) : OpResult Record :=
  match findIndex id users with
  | none => ⟨.error .NotFound, users, []⟩
  | some i =>
    match p.name with
    | none => ⟨.error .ValidationError, users, []⟩
    | some nm =>
      if nm = "" then ⟨.error .ValidationError, users, []⟩
      else
        match users[i]? with
        | some old =>
          let r : Record := { old with name := nm }
          let users' := users.set i r
          ⟨.ok r, users', [users']⟩
        | none => ⟨.error .NotFound, users, []⟩

/-- Translation of `deleteUser` in `app.js`: when `findIndex` hits, splice
the record out, persist, and answer 204 with an empty body (`.ok ()`);
otherwise 404. -/
def deleteUser (users : List Record) (id : Int) : OpResult Unit :=
  match findIndex id users with
  | some i =>
    let users' := users.eraseIdx i
    ⟨.ok (), users', [users']⟩
  | none => ⟨.error .NotFound, users, []⟩

/-- The ids of a collection, in order. -/
def ids (users : List Record) : List Int :=
  users.map (·.id)

/-- A mutating route-handler call, for stating the invariant claims. -/
inductive Op : Type where
  | create (p : Payload)
  | update (id : Int) (p : Payload)
  | delete (id : Int)
deriving DecidableEq, Repr

/-- The collection after one handler call (error responses leave it
unchanged). -/
def applyOp (users : List Record) : Op → List Record
  | .create p => (createUser users p).users
  | .update id p => (updateUser users id p).users
  | .delete id => (deleteUser users id).users

-- ===========================================================================
-- Helper lemmas about the scan functions and `maxId`
-- ===========================================================================

theorem findUser_eq_none_iff (id : Int) (l : List Record) :
    findUser id l = none ↔ ∀ u ∈ l, u.id ≠ id := by
  induction l with
  | nil => simp [findUser]
  | cons u us ih =>
    by_cases h : u.id = id
    · simp [findUser, h]
    · have hb : (u.id == id) = false := by simpa using h
      simp [findUser, hb, ih, h]

theorem findUser_eq_some (id : Int) (l : List Record) (r : Record)
    (h : findUser id l = some r) :
    ∃ i, l.get? i = some r ∧ r.id = id ∧
      ∀ j, j < i → ∀ u, l.get? j = some u → u.id ≠ id := by
  induction l with
  | nil => simp [findUser] at h
  | cons u us ih =>
    by_cases hu : u.id = id
    · have hr : u = r := by simpa [findUser, hu] using h
      subst hr
      exact ⟨0, by simp, hu, fun j hj => absurd hj (by omega)⟩
    · have hb : (u.id == id) = false := by simpa using hu
      have h' : findUser id us = some r := by simpa [findUser, hb] using h
      obtain ⟨i, hget, hid, hfirst⟩ := ih h'
      refine ⟨i + 1, by simpa using hget, hid, ?_⟩
      intro j hj v hv
      cases j with
      | zero =>
        have huv : u = v := by simpa using hv
        exact huv ▸ hu
      | succ j' =>
        exact hfirst j' (by omega) v (by simpa using hv)

theorem findIndex_eq_none_iff (id : Int) (l : List Record) :
    findIndex id l = none ↔ ∀ u ∈ l, u.id ≠ id := by
  induction l with
  | nil => simp [findIndex]
  | cons u us ih =>
    by_cases h : u.id = id
    · simp [findIndex, h]
    · have hb : (u.id == id) = false := by simpa using h
      simp [findIndex, hb, ih, h]

theorem findIndex_eq_some (id : Int) (l : List Record) (i : Nat)
    (h : findIndex id l = some i) :
    ∃ u, l.get? i = some u ∧ u.id = id ∧
      ∀ j, j < i → ∀ v, l.get? j = some v → v.id ≠ id := by
  induction l generalizing i with
  | nil => simp [findIndex] at h
  | cons u us ih =>
    by_cases hu : u.id = id
    · have h0 : 0 = i := by simpa [findIndex, hu] using h
      subst h0
      exact ⟨u, by simp, hu, fun j hj => absurd hj (by omega)⟩
    · have hb : (u.id == id) = false := by simpa using hu
      have h' : (findIndex id us).map (· + 1) = some i := by
        simpa [findIndex, hb] using h
      cases hfi : findIndex id us with
      | none => rw [hfi] at h'; simp at h'
      | some i' =>
        rw [hfi] at h'
        simp only [Option.map_some', Option.some.injEq] at h'
        subst h'
        obtain ⟨v, hget, hid, hfirst⟩ := ih i' hfi
        refine ⟨v, by simpa using hget, hid, ?_⟩
        intro j hj w hw
        cases j with
        | zero =>
          have huw : u = w := by simpa using hw
          exact huw ▸ hu
        | succ j' => exact hfirst j' (by omega) w (by simpa using hw)

theorem le_foldl_max (l : List Record) (b : Int) :
    b ≤ l.foldl (fun m u => max m u.id) b := by
  induction l generalizing b with
  | nil => simp
  | cons u us ih => exact le_trans (le_max_left b u.id) (ih (max b u.id))

theorem mem_le_foldl_max (l : List Record) (u : Record) :
    ∀ b : Int, u ∈ l → u.id ≤ l.foldl (fun m u => max m u.id) b := by
  induction l with
  | nil => intro b hu; cases hu
  | cons v vs ih =>
    intro b hu
    rcases List.mem_cons.1 hu with h | h
    · subst h
      exact le_trans (le_max_right b u.id) (le_foldl_max vs (max b u.id))
    · exact ih (max b v.id) h

theorem mem_le_maxId (users : List Record) (u : Record) (hu : u ∈ users) :
    u.id ≤ maxId users :=
  mem_le_foldl_max users u 0 hu

theorem maxId_nonneg (users : List Record) : 0 ≤ maxId users :=
  le_foldl_max users 0

/-- A left fold of `max` returns its seed or hits one of the ids. -/
theorem foldl_max_mem (l : List Record) : ∀ b : Int,
    l.foldl (fun m u => max m u.id) b = b ∨
      l.foldl (fun m u => max m u.id) b ∈ ids l := by
  induction l with
  | nil => intro b; left; rfl
  | cons u us ih =>
    intro b
    rw [List.foldl_cons]
    rcases ih (max b u.id) with h | h
    · rcases max_choice b u.id with he | he
      · left; rw [h, he]
      · right; rw [h, he]; simp [ids]
    · right
      simp only [ids, List.map_cons, List.mem_cons]
      right
      simpa [ids] using h

/-- When every id is nonnegative and the collection is nonempty, `maxId` is
attained: it really is the maximum of the existing ids. -/
theorem maxId_mem_of_nonneg (users : List Record)
    (hpos : ∀ u ∈ users, 0 ≤ u.id) (hne : users ≠ []) :
    maxId users ∈ ids users := by
  rcases foldl_max_mem users 0 with h | h
  · cases users with
    | nil => exact absurd rfl hne
    | cons u us =>
      have h1 : u.id ≤ maxId (u :: us) := mem_le_maxId _ u (by simp)
      have h2 : 0 ≤ u.id := hpos u (by simp)
      have h3 : maxId (u :: us) = 0 := h
      have h4 : maxId (u :: us) = u.id := by omega
      rw [h4]
      simp [ids]
  · exact h

theorem maxId_succ_not_mem (users : List Record) : maxId users + 1 ∉ ids users := by
  intro hmem
  simp only [ids, List.mem_map] at hmem
  obtain ⟨u, hu, hid⟩ := hmem
  have := mem_le_maxId users u hu
  omega

theorem set_get?_self {α : Type} (l : List α) :
    ∀ (i : Nat) (a : α), l.get? i = some a → l.set i a = l := by
  induction l with
  | nil => intro i a h; simp at h
  | cons x xs ih =>
    intro i a h
    cases i with
    | zero =>
      have : x = a := by simpa using h
      simp [this]
    | succ i' =>
      have h' : xs.get? i' = some a := by simpa using h
      simpa using ih i' a h'

/-- Updating a record's name in place never changes the id sequence. -/
theorem ids_set_name (users : List Record) (i : Nat) (old : Record) (nm : String)
    (h : users.get? i = some old) :
    ids (users.set i { old with name := nm }) = ids users := by
  unfold ids
  rw [List.map_set]
  apply set_get?_self
  rw [List.get?_eq_getElem?, List.getElem?_map]
  rw [List.get?_eq_getElem?] at h
  rw [h]
  rfl

theorem update_users_eq_or (users : List Record) (id : Int) (p : Payload) :
    (updateUser users id p).users = users ∨
    ∃ i old nm, findIndex id users = some i ∧ users.get? i = some old ∧
      (updateUser users id p).users = users.set i { old with name := nm } := by
  cases hfi : findIndex id users with
  | none => left; simp [updateUser, hfi]
  | some i =>
    cases hp : p.name with
    | none => left; simp [updateUser, hfi, hp]
    | some nm =>
      by_cases hnm : nm = ""
      · left; simp [updateUser, hfi, hp, hnm]
      · cases hget : users[i]? with
        | none => left; simp [updateUser, hfi, hp, hnm, hget]
        | some old =>
          right
          refine ⟨i, old, nm, rfl, ?_, ?_⟩
          · rw [List.get?_eq_getElem?, hget]
          · simp [updateUser, hfi, hp, hnm, hget]

theorem delete_users_eq_or (users : List Record) (id : Int) :
    (deleteUser users id).users = users ∨
    ∃ i, (deleteUser users id).users = users.eraseIdx i := by
  unfold deleteUser
  cases hfi : findIndex id users with
  | none => left; rfl
  | some i => right; exact ⟨i, rfl⟩

theorem create_users_eq_or (users : List Record) (p : Payload) :
    (createUser users p).users = users ∨
    (createUser users p).users =
      users ++ [⟨(p.name.getD ""), p.extra, maxId users + 1⟩] := by
  cases hp : p.name with
  | none => left; simp [createUser, hp]
  | some nm =>
    by_cases hnm : nm = ""
    · left; simp [createUser, hp, hnm]
    · right; simp [createUser, hp, hnm]

/-- One handler call preserves distinctness of the ids. -/
theorem applyOp_nodup (s : List Record) (op : Op)
    (hnd : (ids s).Nodup) : (ids (applyOp s op)).Nodup := by
  cases op with
  | create p =>
    rcases create_users_eq_or s p with h | h
    · simpa [applyOp, h] using hnd
    · simp only [applyOp, h, ids, List.map_append, List.map_cons, List.map_nil]
      rw [← List.concat_eq_append]
      exact List.Nodup.concat (maxId_succ_not_mem s) hnd
  | update id p =>
    rcases update_users_eq_or s id p with h | h
    · simpa [applyOp, h] using hnd
    · obtain ⟨i, old, nm, _, hget, husers⟩ := h
      simp only [applyOp, husers]
      rw [ids_set_name s i old nm hget]
      exact hnd
  | delete id =>
    rcases delete_users_eq_or s id with h | h
    · simpa [applyOp, h] using hnd
    · obtain ⟨i, husers⟩ := h
      simp only [applyOp, husers, ids]
      simp only [ids] at hnd
      exact hnd.sublist ((List.eraseIdx_sublist s i).map (·.id))

/-- Under distinct ids, splicing out the first id match is exactly filtering
out the (unique) record with that id. -/
theorem eraseIdx_findIndex_eq_filter (users : List Record) (id : Int) :
    ∀ i, (ids users).Nodup → findIndex id users = some i →
      users.eraseIdx i = users.filter (fun u => !(u.id == id)) := by
  induction users with
  | nil => intro i _ h; simp [findIndex] at h
  | cons u us ih =>
    intro i hnd h
    by_cases hu : u.id = id
    · have h0 : 0 = i := by simpa [findIndex, hu] using h
      subst h0
      have hfu : (u.id == id) = true := by simpa using hu
      simp only [List.eraseIdx_zero, List.tail_cons, List.filter_cons, hfu,
        Bool.not_true, Bool.false_eq_true, if_false]
      have hall : ∀ v ∈ us, (!(v.id == id)) = true := by
        intro v hv
        have hvne : v.id ≠ id := by
          intro hvid
          have hmem : u.id ∈ ids us := by
            simp only [ids, List.mem_map]
            exact ⟨v, hv, by rw [hvid, hu]⟩
          have : (ids (u :: us)).Nodup := hnd
          rw [ids, List.map_cons] at this
          exact (List.nodup_cons.1 this).1 hmem
        simpa using hvne
      exact (List.filter_eq_self.2 hall).symm
    · have hb : (u.id == id) = false := by simpa using hu
      have h' : (findIndex id us).map (· + 1) = some i := by
        simpa [findIndex, hb] using h
      cases hfi : findIndex id us with
      | none => rw [hfi] at h'; simp at h'
      | some i' =>
        rw [hfi] at h'
        simp only [Option.map_some', Option.some.injEq] at h'
        subst h'
        have hnd' : (ids us).Nodup := by
          rw [ids, List.map_cons] at hnd
          exact (List.nodup_cons.1 hnd).2
        simp only [List.eraseIdx_cons_succ, List.filter_cons, hb,
          Bool.not_false, if_true]
        rw [ih i' hnd' hfi]

-- ===========================================================================
-- Claim theorems: record-store operations
-- ===========================================================================

/-- C1: `create(payload)` fails with ValidationError when `payload.name` is
missing or empty; otherwise it assigns the id `1 + max(existing ids, default
0)` (`maxId` bounds every existing id, equals 0 on the empty collection, and
is attained whenever ids are nonnegative), appends the record, persists the
full collection, and returns the created record; on an empty collection,
`create({name:"Diana"})` yields `{id:1, name:"Diana"}` and the collection
`[{id:1, name:"Diana"}]`. -/
theorem create_spec (users : List Record) (p : Payload) :
    (validName p.name = false →
      (createUser users p).response = .error .ValidationError) ∧
    (∀ nm, p.name = some nm → nm ≠ "" →
      createUser users p =
        ⟨.ok ⟨nm, p.extra, maxId users + 1⟩,
          users ++ [⟨nm, p.extra, maxId users + 1⟩],
          [users ++ [⟨nm, p.extra, maxId users + 1⟩]]⟩) ∧
    (∀ u ∈ users, u.id ≤ maxId users) ∧
    ((∀ u ∈ users, 0 ≤ u.id) → users ≠ [] → maxId users ∈ ids users) ∧
    maxId [] = 0 ∧
    createUser [] ⟨some "Diana", []⟩ =
      ⟨.ok ⟨"Diana", [], 1⟩, [⟨"Diana", [], 1⟩], [[⟨"Diana", [], 1⟩]]⟩ := by
  refine ⟨?_, ?_, fun u hu => mem_le_maxId users u hu,
    maxId_mem_of_nonneg users, rfl, by decide⟩
  · intro h
    cases hp : p.name with
    | none => simp [createUser, hp]
    | some nm =>
      rw [hp] at h
      have hnm : nm = "" := by simpa [validName] using h
      simp [createUser, hp, hnm]
  · intro nm hp hnm
    simp [createUser, hp, hnm]

theorem create_spec_witness :
    (createUser [] ⟨none, []⟩).response = .error .ValidationError ∧
    createUser [] ⟨some "Diana", []⟩ =
      ⟨.ok ⟨"Diana", [], maxId [] + 1⟩, [⟨"Diana", [], maxId [] + 1⟩],
        [[⟨"Diana", [], maxId [] + 1⟩]]⟩ :=
  ⟨(create_spec [] ⟨none, []⟩).1 rfl,
    (create_spec [] ⟨some "Diana", []⟩).2.1 "Diana" rfl (by decide)⟩

/-- C2: `update(id, payload)` fails with NotFound when no record has that id,
fails with ValidationError when the name is missing or empty, and otherwise
replaces exactly the name field of the record at the first matching index
(every other position unchanged), persists, and returns the updated record;
including the two scenario instances from the spec. -/
theorem update_spec (users : List Record) (id : Int) (p : Payload) :
    ((∀ u ∈ users, u.id ≠ id) →
      updateUser users id p = ⟨.error .NotFound, users, []⟩) ∧
    ((∃ u ∈ users, u.id = id) → validName p.name = false →
      updateUser users id p = ⟨.error .ValidationError, users, []⟩) ∧
    (∀ nm, p.name = some nm → nm ≠ "" →
      ∀ i old, findIndex id users = some i → users.get? i = some old →
        updateUser users id p =
          ⟨.ok { old with name := nm }, users.set i { old with name := nm },
            [users.set i { old with name := nm }]⟩ ∧
        (users.set i { old with name := nm }).get? i =
          some { old with name := nm } ∧
        (∀ j, j ≠ i →
          (users.set i { old with name := nm }).get? j = users.get? j)) ∧
    updateUser [⟨"Alice", [], 1⟩] 1 ⟨some "Alice Smith", []⟩ =
      ⟨.ok ⟨"Alice Smith", [], 1⟩, [⟨"Alice Smith", [], 1⟩],
        [[⟨"Alice Smith", [], 1⟩]]⟩ ∧
    updateUser [⟨"Alice", [], 1⟩] 99 ⟨some "X", []⟩ =
      ⟨.error .NotFound, [⟨"Alice", [], 1⟩], []⟩ := by
  refine ⟨?_, ?_, ?_, by decide, by decide⟩
  · intro h
    have hfi : findIndex id users = none := (findIndex_eq_none_iff id users).2 h
    simp [updateUser, hfi]
  · intro hex hval
    obtain ⟨u, hu, huid⟩ := hex
    cases hfi : findIndex id users with
    | none =>
      exact absurd huid ((findIndex_eq_none_iff id users).1 hfi u hu)
    | some i =>
      cases hp : p.name with
      | none => simp [updateUser, hfi, hp]
      | some nm =>
        rw [hp] at hval
        have hnm : nm = "" := by simpa [validName] using hval
        simp [updateUser, hfi, hp, hnm]
  · intro nm hp hnm i old hfi hget
    have hget' : users[i]? = some old := by rw [← List.get?_eq_getElem?, hget]
    refine ⟨by simp [updateUser, hfi, hp, hnm, hget'], ?_, ?_⟩
    · have hlt : i < users.length := by
        rw [List.get?_eq_getElem?] at hget
        exact (List.getElem?_eq_some_iff.1 hget).1
      rw [List.get?_eq_getElem?]
      simp [List.getElem?_set_self hlt]
    · intro j hj
      rw [List.get?_eq_getElem?, List.get?_eq_getElem?]
      exact List.getElem?_set_ne (fun he => hj he.symm)

theorem update_spec_witness :
    ((∃ u ∈ ([⟨"Alice", [], 1⟩] : List Record), u.id = (1 : Int)) ∧
      validName (none : Option String) = false) ∧
    updateUser [⟨"Alice", [], 1⟩] 1 ⟨none, []⟩ =
      ⟨.error .ValidationError, [⟨"Alice", [], 1⟩], []⟩ :=
  ⟨⟨⟨⟨"Alice", [], 1⟩, by decide, by decide⟩, by decide⟩,
    (update_spec [⟨"Alice", [], 1⟩] 1 ⟨none, []⟩).2.1
      ⟨⟨"Alice", [], 1⟩, by decide, by decide⟩ (by decide)⟩

/-- C3: under the unique-id invariant, `delete(id)` removes exactly the
record whose id matches (the remainder is the order-preserving filter of the
non-matching records, one element shorter), persists the result, succeeds
with no payload, and afterwards `getById(id)` is NotFound; `delete` of an
absent id is NotFound with no change and no write; including the
{1,2,3}-minus-2 scenario. -/
theorem delete_spec (users : List Record) (id : Int)
    (hnd : (ids users).Nodup) :
    ((∀ u ∈ users, u.id ≠ id) →
      deleteUser users id = ⟨.error .NotFound, users, []⟩) ∧
    ((∃ u ∈ users, u.id = id) →
      (deleteUser users id).response = .ok () ∧
      (deleteUser users id).users = users.filter (fun u => !(u.id == id)) ∧
      (deleteUser users id).writes = [(deleteUser users id).users] ∧
      (deleteUser users id).users.length + 1 = users.length ∧
      getUserById (deleteUser users id).users id = .error .NotFound) ∧
    ids (deleteUser [⟨"a", [], 1⟩, ⟨"b", [], 2⟩, ⟨"c", [], 3⟩] 2).users =
      [1, 3] ∧
    getUserById (deleteUser [⟨"a", [], 1⟩, ⟨"b", [], 2⟩, ⟨"c", [], 3⟩] 2).users
      2 = .error .NotFound := by
  refine ⟨?_, ?_, by decide, by decide⟩
  · intro h
    have hfi : findIndex id users = none := (findIndex_eq_none_iff id users).2 h
    simp [deleteUser, hfi]
  · intro hex
    obtain ⟨u, hu, huid⟩ := hex
    cases hfi : findIndex id users with
    | none =>
      exact absurd huid ((findIndex_eq_none_iff id users).1 hfi u hu)
    | some i =>
      have hfil : users.eraseIdx i = users.filter (fun u => !(u.id == id)) :=
        eraseIdx_findIndex_eq_filter users id i hnd hfi
      have hres : deleteUser users id = ⟨.ok (), users.eraseIdx i,
          [users.eraseIdx i]⟩ := by
        simp [deleteUser, hfi]
      obtain ⟨v, hget, hvid, _⟩ := findIndex_eq_some id users i hfi
      have hlt : i < users.length := by
        rw [List.get?_eq_getElem?] at hget
        exact (List.getElem?_eq_some_iff.1 hget).1
      refine ⟨by rw [hres], by rw [hres]; exact hfil, by rw [hres], ?_, ?_⟩
      · rw [hres]
        exact List.length_eraseIdx_add_one hlt
      · rw [hres]
        have hnone : findUser id (users.eraseIdx i) = none := by
          rw [hfil]
          apply (findUser_eq_none_iff id _).2
          intro w hw
          have := List.of_mem_filter hw
          simpa using this
        simp [getUserById, hnone]

theorem delete_spec_witness :
    (ids [⟨"a", [], 1⟩, ⟨"b", [], 2⟩, ⟨"c", [], 3⟩]).Nodup ∧
    ids (deleteUser [⟨"a", [], 1⟩, ⟨"b", [], 2⟩, ⟨"c", [], 3⟩] 2).users =
      [1, 3] :=
  ⟨by decide,
    (delete_spec [⟨"a", [], 1⟩, ⟨"b", [], 2⟩, ⟨"c", [], 3⟩] 2 (by decide)).2.2.1⟩

/-- C4: the unique-id invariant is preserved by every operation, and hence
holds in every state reachable by a sequence of create/update/delete calls
from a state satisfying it. -/
theorem uniqueness_invariant (s : List Record) (hnd : (ids s).Nodup) :
    (∀ op : Op, (ids (applyOp s op)).Nodup) ∧
    (∀ ops : List Op, (ids (ops.foldl applyOp s)).Nodup) := by
  constructor
  · intro op
    exact applyOp_nodup s op hnd
  · intro ops
    induction ops generalizing s with
    | nil => exact hnd
    | cons op ops ih =>
      exact ih (applyOp s op) (applyOp_nodup s op hnd)

theorem uniqueness_invariant_witness :
    (ids ([] : List Record)).Nodup ∧
    (ids ([Op.create ⟨some "A", []⟩, Op.create ⟨some "B", []⟩,
      Op.delete 1, Op.create ⟨some "C", []⟩].foldl applyOp [])).Nodup :=
  ⟨by decide, (uniqueness_invariant [] (by decide)).2 _⟩

/-- C6: a create with a missing or empty name (in particular `create({})`)
returns ValidationError, leaves the collection unchanged, and performs no
persistence write. -/
theorem create_error_atomic (users : List Record) (p : Payload)
    (h : validName p.name = false) :
    createUser users p = ⟨.error .ValidationError, users, []⟩ ∧
    (createUser users p).users = users ∧
    (createUser users p).writes = [] ∧
    createUser users ⟨none, []⟩ = ⟨.error .ValidationError, users, []⟩ := by
  have hmain : createUser users p = ⟨.error .ValidationError, users, []⟩ := by
    cases hp : p.name with
    | none => simp [createUser, hp]
    | some nm =>
      rw [hp] at h
      have hnm : nm = "" := by simpa [validName] using h
      simp [createUser, hp, hnm]
  exact ⟨hmain, by rw [hmain], by rw [hmain], by simp [createUser]⟩

theorem create_error_atomic_witness :
    validName (none : Option String) = false ∧
    createUser [⟨"Eve", [], 1⟩] ⟨none, []⟩ =
      ⟨.error .ValidationError, [⟨"Eve", [], 1⟩], []⟩ :=
  ⟨by decide, (create_error_atomic [⟨"Eve", [], 1⟩] ⟨none, []⟩ (by decide)).1⟩

/-- C7: `getById(id)` returns the first record (in scan order) whose id
equals the argument, and NotFound exactly when no record's id equals the
argument. -/
theorem getById_spec (users : List Record) (id : Int) :
    (∀ r, getUserById users id = .ok r →
      ∃ i, users.get? i = some r ∧ r.id = id ∧
        ∀ j, j < i → ∀ u, users.get? j = some u → u.id ≠ id) ∧
    (getUserById users id = .error .NotFound ↔ ∀ u ∈ users, u.id ≠ id) := by
  constructor
  · intro r hr
    cases hf : findUser id users with
    | none => simp [getUserById, hf] at hr
    | some u =>
      have : u = r := by simpa [getUserById, hf] using hr
      subst this
      exact findUser_eq_some id users u hf
  · constructor
    · intro hr
      cases hf : findUser id users with
      | none => exact (findUser_eq_none_iff id users).1 hf
      | some u => simp [getUserById, hf] at hr
    · intro h
      have hf : findUser id users = none := (findUser_eq_none_iff id users).2 h
      simp [getUserById, hf]

theorem getById_spec_witness :
    ∃ i, ([⟨"Alice", [], 1⟩] : List Record).get? i = some ⟨"Alice", [], 1⟩ ∧
      (⟨"Alice", [], 1⟩ : Record).id = 1 ∧
      ∀ j, j < i → ∀ u, ([⟨"Alice", [], 1⟩] : List Record).get? j = some u →
        u.id ≠ 1 :=
  (getById_spec [⟨"Alice", [], 1⟩] 1).1 ⟨"Alice", [], 1⟩ (by decide)

/-- C9: extra fields of an accepted payload are stored verbatim in the
created record (which is appended to the collection), and acceptance never
depends on the extra fields: changing them still yields a created record
carrying exactly those fields. -/
theorem create_open_schema (users : List Record) (p : Payload) (r : Record)
    (h : (createUser users p).response = .ok r) :
    r.extra = p.extra ∧ r.id = maxId users + 1 ∧
    (createUser users p).users = users ++ [r] ∧
    ∀ e : List (String × JVal), ∃ r' : Record,
      (createUser users { p with extra := e }).response = .ok r' ∧
      r'.extra = e := by
  cases hp : p.name with
  | none => simp [createUser, hp] at h
  | some nm =>
    by_cases hnm : nm = ""
    · simp [createUser, hp, hnm] at h
    · have hr : ⟨nm, p.extra, maxId users + 1⟩ = r := by
        simpa [createUser, hp, hnm] using h
      refine ⟨by rw [← hr], by rw [← hr], by simp [createUser, hp, hnm, ← hr], ?_⟩
      intro e
      exact ⟨⟨nm, e, maxId users + 1⟩, by simp [createUser, hp, hnm], rfl⟩

theorem create_open_schema_witness :
    (createUser [] ⟨some "A", [("role", JVal.jstr "admin")]⟩).response =
      .ok ⟨"A", [("role", JVal.jstr "admin")], 1⟩ ∧
    (⟨"A", [("role", JVal.jstr "admin")], 1⟩ : Record).extra =
      [("role", JVal.jstr "admin")] :=
  ⟨by decide,
    (create_open_schema [] ⟨some "A", [("role", JVal.jstr "admin")]⟩
      ⟨"A", [("role", JVal.jstr "admin")], 1⟩ (by decide)).1⟩

-- ===========================================================================
-- Persistence layer: `utils/fileHandler.js` and the JSON text of the store
-- ===========================================================================

/-- Hexadecimal digit character (lowercase, as emitted by
`JSON.stringify` in a `\u00XX` escape). -/
def hexDigit (n : Nat) : Char :=
  if n < 10 then Char.ofNat (48 + n) else Char.ofNat (87 + n)

/-- Value of a hexadecimal digit character, accepting both cases. -/
def hexVal (c : Char) : Option Nat :=
  if 48 ≤ c.toNat ∧ c.toNat ≤ 57 then some (c.toNat - 48)
  else if 97 ≤ c.toNat ∧ c.toNat ≤ 102 then some (c.toNat - 87)
  else if 65 ≤ c.toNat ∧ c.toNat ≤ 70 then some (c.toNat - 55)
  else none

/-- The JSON string escaping performed by `JSON.stringify`: quote and
backslash get a backslash escape, the control characters 8, 9, 10, 12, 13
get their short escapes, the remaining control characters get `\u00XX`,
everything else is emitted verbatim. -/
def escChar (c : Char) : List Char :=
  if c = '"' then ['\\', '"']
  else if c = '\\' then ['\\', '\\']
  else if c.toNat < 32 then
    if c = '\x08' then ['\\', 'b']
    else if c = '\t' then ['\\', 't']
    else if c = '\n' then ['\\', 'n']
    else if c = '\x0c' then ['\\', 'f']
    else if c = '\r' then ['\\', 'r']
    else ['\\', 'u', '0', '0', hexDigit (c.toNat / 16), hexDigit (c.toNat % 16)]
  else [c]

def escChars : List Char → List Char
  | [] => []
  | c :: cs => escChar c ++ escChars cs

/-- Decimal digits, most significant first; the fuel (any bound above the
number itself suffices) makes the recursion structural. -/
def natDigitsAux : Nat → Nat → List Char
  | 0, _ => []
  | fuel + 1, n =>
    if n < 10 then [Char.ofNat (48 + n)]
    else natDigitsAux fuel (n / 10) ++ [Char.ofNat (48 + n % 10)]

/-- Decimal digits of a natural number, most significant first. -/
def natDigits (n : Nat) : List Char :=
  natDigitsAux (n + 1) n

/-- Decimal representation of an integer id, as `JSON.stringify` prints an
integral JS number. -/
def serializeInt (n : Int) : List Char :=
  if n < 0 then '-' :: natDigits n.natAbs else natDigits n.toNat

/-- A JSON string literal: quote, escaped content, quote. -/
def serializeStr (s : String) : List Char :=
  '"' :: escChars s.data ++ ['"']

/-- A scalar JSON value as `JSON.stringify` prints it. -/
def serializeVal : JVal → List Char
  | .jstr s => serializeStr s
  | .jint n => serializeInt n
  | .jbool true => ['t', 'r', 'u', 'e']
  | .jbool false => ['f', 'a', 'l', 's', 'e']
  | .jnull => ['n', 'u', 'l', 'l']

/-- One object member at depth 2 of the pretty-printed store:
four spaces of indentation, the quoted key, `: `, and the value. -/
def fieldStr (f : String × JVal) : List Char :=
  ' ' :: ' ' :: ' ' :: ' ' :: serializeStr f.1 ++ ':' :: ' ' :: serializeVal f.2

/-- The members of a record object, separated by `,\n` as
`JSON.stringify(·, null, 2)` prints them. -/
def serializeFields : List (String × JVal) → List Char
  | [] => []
  | [f] => fieldStr f
  | f :: g :: fs => fieldStr f ++ ',' :: '\n' :: serializeFields (g :: fs)

/-- The JS object members of a record, in the order `createUser` builds
them: the parsed body's fields (`name` first, then the extras) and the
`id` property assigned last. -/
def recToFields (r : Record) : List (String × JVal) :=
  ("name", .jstr r.name) :: r.extra ++ [("id", .jint r.id)]

/-- One record object at depth 1 of the pretty-printed store. -/
def recStr (r : Record) : List Char :=
  ' ' :: ' ' :: '{' :: '\n' :: serializeFields (recToFields r) ++
    '\n' :: ' ' :: ' ' :: ['}']

/-- The array items, separated by `,\n`. -/
def serializeItems : List Record → List Char
  | [] => []
  | [r] => recStr r
  | r :: s :: rs => recStr r ++ ',' :: '\n' :: serializeItems (s :: rs)

/-- Model of `JSON.stringify(data, null, 2)` as `writeData` applies it to the
`users` collection: the exact pretty-printed JSON text of the record array
(2-space indentation, `[]` for the empty collection). -/
def serializeRecords : List Record → String
  | [] => "[]"
  | r :: rs => ⟨'[' :: '\n' :: serializeItems (r :: rs) ++ ['\n', ']']⟩

/-- JSON insignificant whitespace. -/
def isWsChar (c : Char) : Bool :=
  c = ' ' || c = '\n' || c = '\t' || c = '\r'

def skipWs : List Char → List Char
  | [] => []
  | c :: l => if isWsChar c then skipWs l else c :: l

/-- Body of a JSON string literal (after the opening quote): unescape until
the closing quote, accumulating the decoded characters in reverse. -/
def parseStrAux : List Char → List Char → Option (String × List Char)
  | [], _ => none
  | c :: r, acc =>
    if c = '"' then some (⟨acc.reverse⟩, r)
    else if c = '\\' then
      match r with
      | [] => none
      | e :: r2 =>
        if e = '"' then parseStrAux r2 ('"' :: acc)
        else if e = '\\' then parseStrAux r2 ('\\' :: acc)
        else if e = '/' then parseStrAux r2 ('/' :: acc)
        else if e = 'b' then parseStrAux r2 ('\x08' :: acc)
        else if e = 'f' then parseStrAux r2 ('\x0c' :: acc)
        else if e = 'n' then parseStrAux r2 ('\n' :: acc)
        else if e = 'r' then parseStrAux r2 ('\r' :: acc)
        else if e = 't' then parseStrAux r2 ('\t' :: acc)
        else if e = 'u' then
          match r2 with
          | h1 :: h2 :: h3 :: h4 :: r3 =>
            match hexVal h1, hexVal h2, hexVal h3, hexVal h4 with
            | some a, some b, some c, some d =>
              parseStrAux r3 (Char.ofNat (((a * 16 + b) * 16 + c) * 16 + d) :: acc)
            | _, _, _, _ => none
          | _ => none
        else none
    else parseStrAux r (c :: acc)

/-- Maximal run of decimal digits, accumulating the value. -/
def parseDigits : List Char → Nat → Nat × List Char
  | [], acc => (acc, [])
  | c :: r, acc =>
    if c.isDigit then parseDigits r (acc * 10 + (c.toNat - 48))
    else (acc, c :: r)

/-- A scalar JSON value: string, integer, boolean or null. -/
def parseScalar : List Char → Option (JVal × List Char)
  | [] => none
  | c :: r =>
    if c = '"' then
      match parseStrAux r [] with
      | some (s, r2) => some (.jstr s, r2)
      | none => none
    else if c = 't' then
      match r with
      | 'r' :: 'u' :: 'e' :: r2 => some (.jbool true, r2)
      | _ => none
    else if c = 'f' then
      match r with
      | 'a' :: 'l' :: 's' :: 'e' :: r2 => some (.jbool false, r2)
      | _ => none
    else if c = 'n' then
      match r with
      | 'u' :: 'l' :: 'l' :: r2 => some (.jnull, r2)
      | _ => none
    else if c = '-' then
      match r with
      | [] => none
      | c2 :: r2 =>
        if c2.isDigit then
          let p := parseDigits (c2 :: r2) 0
          some (.jint (-(p.1 : Int)), p.2)
        else none
    else if c.isDigit then
      let p := parseDigits (c :: r) 0
      some (.jint (p.1 : Int), p.2)
    else none

/-- Reassemble a parsed member list into a `Record`: the canonical persisted
shape has `name` first and `id` last, with the extra fields in between. -/
def fieldsToRec (fs : List (String × JVal)) : Option Record :=
  match fs with
  | (k, .jstr nm) :: rest =>
    if k = "name" then
      match rest.getLast? with
      | some (k2, .jint n) =>
        if k2 = "id" then some ⟨nm, rest.dropLast, n⟩ else none
      | _ => none
    else none
  | _ => none

/-- The members of an object, positioned after the opening brace (or after a
separating comma): whitespace, a quoted key, `:`, a scalar value, then
either `,` and more members or the closing brace. The fuel argument bounds
the recursion; callers pass the input length. -/
def parseFields : Nat → List Char → Option (List (String × JVal) × List Char)
  | 0, _ => none
  | fuel + 1, l =>
    match skipWs l with
    | '"' :: r1 =>
      match parseStrAux r1 [] with
      | some (key, r2) =>
        match skipWs r2 with
        | ':' :: r3 =>
          match parseScalar (skipWs r3) with
          | some (v, r4) =>
            match skipWs r4 with
            | ',' :: r5 =>
              match parseFields fuel r5 with
              | some (fs, r6) => some ((key, v) :: fs, r6)
              | none => none
            | '}' :: r5 => some ([(key, v)], r5)
            | _ => none
          | none => none
        | _ => none
      | none => none
    | _ => none

/-- The items of the stored array, positioned after the opening bracket (or
after a separating comma): each item is a record object, followed by `,` and
more items or the closing bracket. -/
def parseItems : Nat → List Char → Option (List Record × List Char)
  | 0, _ => none
  | fuel + 1, l =>
    match skipWs l with
    | '{' :: r1 =>
      match parseFields (fuel + 1) r1 with
      | some (fs, r2) =>
        match fieldsToRec fs with
        | some rec =>
          match skipWs r2 with
          | ',' :: r3 =>
            match parseItems fuel r3 with
            | some (rs, r4) => some (rec :: rs, r4)
            | none => none
          | ']' :: r3 => some ([rec], r3)
          | _ => none
        | none => none
      | none => none
    | _ => none

/-- Model of `JSON.parse` restricted to the persisted collection format: a
JSON array of flat record objects in the canonical member order, with
arbitrary insignificant whitespace. Any other content is a parse error
(`JSON.parse` would equally throw on it or produce a non-collection value
outside the store's data model). -/
def parseRecords (s : String) : Except String (List Record) :=
  match skipWs s.data with
  | '[' :: r1 =>
    match skipWs r1 with
    | ']' :: r2 =>
      if (skipWs r2).isEmpty then .ok [] else .error "trailing content"
    | c :: _ =>
      if c = '{' then
        match parseItems s.data.length r1 with
        | some (rs, r2) =>
          if (skipWs r2).isEmpty then .ok rs else .error "trailing content"
        | none => .error "malformed store content"
      else .error "malformed store content"
    | [] => .error "malformed store content"
  | _ => .error "malformed store content"

/-- The backing store `users.json`: absent on disk, or present with some
content text. -/
inductive FileState : Type where
  | absent
  | present (content : String)
deriving DecidableEq

/-- Failure mode of `readData` in the model: the file existed and its
content did not parse (the `JSON.parse` throw re-raised past the `ENOENT`
check). -/
inductive LoadError : Type where
  | ParseError
deriving DecidableEq, Repr

/-- Translation of `readData` in `utils/fileHandler.js`: a missing file
(`ENOENT`) yields the empty collection; an existing file yields the empty
collection when its content is the empty (falsy) string, otherwise
`JSON.parse` of the content, whose failure propagates. -/
def readData : FileState → Except LoadError (List Record)
  | .absent => .ok []
  | .present s =>
    if s = "" then .ok []
    else
      match parseRecords s with
      | .ok rs => .ok rs
      | .error _ => .error .ParseError

/-- Translation of `writeData` in `utils/fileHandler.js`: overwrite the
store with `JSON.stringify(data, null, 2)`. -/
def writeData (data : List Record) : FileState :=
  .present (serializeRecords data)

/-- Outcome of server startup. -/
inductive StartupResult : Type where
  | started (users : List Record)
  | exited (code : Nat)
deriving DecidableEq, Repr

/-- Translation of `initializeServer` in `app.js`: load the persisted
collection and start serving with it, or on a load failure
`process.exit(1)`. -/
def initializeServer (fs : FileState) : StartupResult :=
  match readData fs with
  | .ok us => .started us
  | .error _ => .exited 1

set_option maxRecDepth 16384

-- ===========================================================================
-- Round-trip lemmas: the parser inverts the serializer
-- ===========================================================================

theorem skipWs_cons (c : Char) (l : List Char) :
    skipWs (c :: l) = if isWsChar c then skipWs l else c :: l := by
  rw [skipWs.eq_def]

theorem skipWs_cons_of_not_ws {c : Char} (l : List Char)
    (h : isWsChar c = false) : skipWs (c :: l) = c :: l := by
  rw [skipWs_cons, h]
  simp

/-- A decimal digit character is none of the dispatch characters of
`parseScalar` and is not whitespace. -/
theorem isDigit_facts {d : Char} (h : d.isDigit = true) :
    d ≠ '"' ∧ d ≠ 't' ∧ d ≠ 'f' ∧ d ≠ 'n' ∧ d ≠ '-' ∧ isWsChar d = false := by
  have hq : d ≠ '"' := fun he => by rw [he] at h; exact absurd h (by decide)
  have ht : d ≠ 't' := fun he => by rw [he] at h; exact absurd h (by decide)
  have hf : d ≠ 'f' := fun he => by rw [he] at h; exact absurd h (by decide)
  have hn : d ≠ 'n' := fun he => by rw [he] at h; exact absurd h (by decide)
  have hm : d ≠ '-' := fun he => by rw [he] at h; exact absurd h (by decide)
  have hsp : d ≠ ' ' := fun he => by rw [he] at h; exact absurd h (by decide)
  have hnl : d ≠ '\n' := fun he => by rw [he] at h; exact absurd h (by decide)
  have htb : d ≠ '\t' := fun he => by rw [he] at h; exact absurd h (by decide)
  have hcr : d ≠ '\r' := fun he => by rw [he] at h; exact absurd h (by decide)
  exact ⟨hq, ht, hf, hn, hm, by simp [isWsChar, hsp, hnl, htb, hcr]⟩

theorem hexVal_hexDigit : ∀ n < 16, hexVal (hexDigit n) = some n := by decide

-- Pointwise reduction lemmas for `parseStrAux`.

theorem parseStrAux_quote (r acc : List Char) :
    parseStrAux ('"' :: r) acc = some (⟨acc.reverse⟩, r) := by
  rw [parseStrAux.eq_def]
  simp

theorem parseStrAux_other {c : Char} (r acc : List Char)
    (h1 : c ≠ '"') (h2 : c ≠ '\\') :
    parseStrAux (c :: r) acc = parseStrAux r (c :: acc) := by
  rw [parseStrAux.eq_def]
  simp [h1, h2]

theorem parseStrAux_esc_quote (r2 acc : List Char) :
    parseStrAux ('\\' :: '"' :: r2) acc = parseStrAux r2 ('"' :: acc) := by
  rw [parseStrAux.eq_def]
  simp

theorem parseStrAux_esc_backslash (r2 acc : List Char) :
    parseStrAux ('\\' :: '\\' :: r2) acc = parseStrAux r2 ('\\' :: acc) := by
  rw [parseStrAux.eq_def]
  simp

theorem parseStrAux_esc_b (r2 acc : List Char) :
    parseStrAux ('\\' :: 'b' :: r2) acc = parseStrAux r2 ('\x08' :: acc) := by
  rw [parseStrAux.eq_def]
  simp

theorem parseStrAux_esc_f (r2 acc : List Char) :
    parseStrAux ('\\' :: 'f' :: r2) acc = parseStrAux r2 ('\x0c' :: acc) := by
  rw [parseStrAux.eq_def]
  simp

theorem parseStrAux_esc_n (r2 acc : List Char) :
    parseStrAux ('\\' :: 'n' :: r2) acc = parseStrAux r2 ('\n' :: acc) := by
  rw [parseStrAux.eq_def]
  simp

theorem parseStrAux_esc_r (r2 acc : List Char) :
    parseStrAux ('\\' :: 'r' :: r2) acc = parseStrAux r2 ('\r' :: acc) := by
  rw [parseStrAux.eq_def]
  simp

theorem parseStrAux_esc_t (r2 acc : List Char) :
    parseStrAux ('\\' :: 't' :: r2) acc = parseStrAux r2 ('\t' :: acc) := by
  rw [parseStrAux.eq_def]
  simp

theorem parseStrAux_esc_u (h1 h2 h3 h4 : Char) (r3 acc : List Char)
    (a b k d : Nat) (hv1 : hexVal h1 = some a) (hv2 : hexVal h2 = some b)
    (hv3 : hexVal h3 = some k) (hv4 : hexVal h4 = some d) :
    parseStrAux ('\\' :: 'u' :: h1 :: h2 :: h3 :: h4 :: r3) acc =
      parseStrAux r3 (Char.ofNat (((a * 16 + b) * 16 + k) * 16 + d) :: acc) := by
  rw [parseStrAux.eq_def]
  simp [hv1, hv2, hv3, hv4]

/-- The string-body parser undoes `JSON.stringify` escaping: reading the
escaped characters of `cs` up to a closing quote yields the accumulator
(reversed) followed by `cs`, with the input after the quote left over. -/
theorem parseStrAux_escChars (cs : List Char) : ∀ (acc rest : List Char),
    parseStrAux (escChars cs ++ '"' :: rest) acc =
      some (⟨acc.reverse ++ cs⟩, rest) := by
  induction cs with
  | nil =>
    intro acc rest
    rw [escChars, List.nil_append, parseStrAux_quote]
    simp
  | cons c cs ih =>
    intro acc rest
    by_cases h1 : c = '"'
    · subst h1
      rw [escChars, escChar]
      simp only [reduceIte, List.cons_append, List.nil_append]
      rw [parseStrAux_esc_quote, ih]
      simp
    · by_cases h2 : c = '\\'
      · subst h2
        have hesc : escChar '\\' = ['\\', '\\'] := by decide
        rw [escChars, hesc]
        simp only [List.cons_append, List.nil_append]
        rw [parseStrAux_esc_backslash, ih]
        simp
      · by_cases h3 : c.toNat < 32
        · by_cases hb : c = '\x08'
          · subst hb
            have hesc : escChar '\x08' = ['\\', 'b'] := by decide
            rw [escChars, hesc]
            simp only [List.cons_append, List.nil_append]
            rw [parseStrAux_esc_b, ih]
            simp
          · by_cases htt : c = '\t'
            · subst htt
              have hesc : escChar '\t' = ['\\', 't'] := by decide
              rw [escChars, hesc]
              simp only [List.cons_append, List.nil_append]
              rw [parseStrAux_esc_t, ih]
              simp
            · by_cases hnn : c = '\n'
              · subst hnn
                have hesc : escChar '\n' = ['\\', 'n'] := by decide
                rw [escChars, hesc]
                simp only [List.cons_append, List.nil_append]
                rw [parseStrAux_esc_n, ih]
                simp
              · by_cases hff : c = '\x0c'
                · subst hff
                  have hesc : escChar '\x0c' = ['\\', 'f'] := by decide
                  rw [escChars, hesc]
                  simp only [List.cons_append, List.nil_append]
                  rw [parseStrAux_esc_f, ih]
                  simp
                · by_cases hrr : c = '\r'
                  · subst hrr
                    have hesc : escChar '\r' = ['\\', 'r'] := by decide
                    rw [escChars, hesc]
                    simp only [List.cons_append, List.nil_append]
                    rw [parseStrAux_esc_r, ih]
                    simp
                  · have hesc : escChar c = ['\\', 'u', '0', '0',
                        hexDigit (c.toNat / 16), hexDigit (c.toNat % 16)] := by
                      rw [escChar]
                      simp [h1, h2, h3, hb, htt, hnn, hff, hrr]
                    rw [escChars, hesc]
                    simp only [List.cons_append, List.nil_append]
                    have hv0 : hexVal '0' = some 0 := by decide
                    rw [parseStrAux_esc_u '0' '0' _ _ _ _ 0 0 _ _ hv0 hv0
                      (hexVal_hexDigit _ (by omega))
                      (hexVal_hexDigit _ (by omega))]
                    have hval : ((0 * 16 + 0) * 16 + c.toNat / 16) * 16 +
                        c.toNat % 16 = c.toNat := by omega
                    rw [hval, Char.ofNat_toNat, ih]
                    simp
        · have hesc : escChar c = [c] := by
            rw [escChar]
            simp [h1, h2, h3]
          rw [escChars, hesc]
          simp only [List.cons_append, List.nil_append]
          rw [parseStrAux_other _ _ h1 h2, ih]
          simp

/-- Round trip for a serialized string literal body. -/
theorem parseStrAux_serializeStr (s : String) (rest : List Char) :
    parseStrAux (escChars s.data ++ '"' :: rest) [] = some (s, rest) := by
  rw [parseStrAux_escChars]
  rfl

/-- The continuation after a serialized number never starts with a digit. -/
def noDigitHead : List Char → Bool
  | [] => true
  | c :: _ => !c.isDigit

theorem digit_char_isDigit : ∀ k < 10, (Char.ofNat (48 + k)).isDigit = true := by
  decide

theorem digit_char_toNat : ∀ k < 10, (Char.ofNat (48 + k)).toNat = 48 + k := by
  decide

theorem parseDigits_nil (acc : Nat) : parseDigits [] acc = (acc, []) := by
  rw [parseDigits.eq_def]

theorem parseDigits_cons_digit {c : Char} (r : List Char) (acc : Nat)
    (h : c.isDigit = true) :
    parseDigits (c :: r) acc = parseDigits r (acc * 10 + (c.toNat - 48)) := by
  rw [parseDigits.eq_def]
  simp [h]

theorem parseDigits_cons_not_digit {c : Char} (r : List Char) (acc : Nat)
    (h : c.isDigit = false) :
    parseDigits (c :: r) acc = (acc, c :: r) := by
  rw [parseDigits.eq_def]
  simp [h]

/-- `parseDigits` consumes exactly a maximal run of digits, folding up their
value. -/
theorem parseDigits_run (ds : List Char) : ∀ (rest : List Char) (acc : Nat),
    ds.all (·.isDigit) = true → noDigitHead rest = true →
    parseDigits (ds ++ rest) acc =
      (ds.foldl (fun a c => a * 10 + (c.toNat - 48)) acc, rest) := by
  induction ds with
  | nil =>
    intro rest acc _ hrest
    cases rest with
    | nil => simpa using parseDigits_nil acc
    | cons c cs =>
      have hc : c.isDigit = false := by simpa [noDigitHead] using hrest
      simpa using parseDigits_cons_not_digit cs acc hc
  | cons d ds ih =>
    intro rest acc hall hrest
    rw [List.all_cons] at hall
    have hd : d.isDigit = true := by
      cases hdd : d.isDigit with
      | true => rfl
      | false => rw [hdd] at hall; simp at hall
    have hds : ds.all (·.isDigit) = true := by
      rw [hd] at hall; simpa using hall
    rw [List.cons_append, parseDigits_cons_digit _ _ hd, ih rest _ hds hrest]
    simp

theorem natDigitsAux_all_digits : ∀ (fuel n : Nat),
    (natDigitsAux fuel n).all (·.isDigit) = true := by
  intro fuel
  induction fuel with
  | zero => intro n; rfl
  | succ f ih =>
    intro n
    rw [natDigitsAux.eq_def]
    by_cases h : n < 10
    · simp only [h, if_true, List.all_cons, List.all_nil, Bool.and_true]
      exact digit_char_isDigit n h
    · simp only [h, if_false, List.all_append, List.all_cons, List.all_nil,
        Bool.and_true, ih (n / 10), Bool.true_and]
      exact digit_char_isDigit (n % 10) (by omega)

theorem natDigitsAux_foldl : ∀ (fuel n acc : Nat), n < fuel →
    (natDigitsAux fuel n).foldl (fun a c => a * 10 + (c.toNat - 48)) acc =
      acc * 10 ^ (natDigitsAux fuel n).length + n := by
  intro fuel
  induction fuel with
  | zero => intro n acc h; omega
  | succ f ih =>
    intro n acc h
    rw [natDigitsAux.eq_def]
    by_cases h10 : n < 10
    · simp only [h10, if_true, List.foldl_cons, List.foldl_nil,
        List.length_cons, List.length_nil]
      rw [digit_char_toNat n h10]
      simp [pow_succ]
    · simp only [h10, if_false]
      rw [List.foldl_append, ih (n / 10) acc (by omega)]
      simp only [List.foldl_cons, List.foldl_nil, List.length_append,
        List.length_cons, List.length_nil]
      rw [digit_char_toNat (n % 10) (by omega)]
      rw [pow_succ, ← mul_assoc]
      generalize acc * 10 ^ (natDigitsAux f (n / 10)).length = B
      omega

theorem natDigits_all_digits (n : Nat) : (natDigits n).all (·.isDigit) = true :=
  natDigitsAux_all_digits (n + 1) n

theorem natDigits_ne_nil (n : Nat) : natDigits n ≠ [] := by
  rw [natDigits, natDigitsAux.eq_def]
  by_cases h : n < 10 <;> simp [h]

theorem natDigits_cons (n : Nat) :
    ∃ d ds, natDigits n = d :: ds ∧ d.isDigit = true ∧
      ds.all (·.isDigit) = true := by
  cases hnd : natDigits n with
  | nil => exact absurd hnd (natDigits_ne_nil n)
  | cons d ds =>
    have hall := natDigits_all_digits n
    rw [hnd, List.all_cons] at hall
    have hd : d.isDigit = true := by
      cases hdd : d.isDigit with
      | true => rfl
      | false => rw [hdd] at hall; simp at hall
    have hds : ds.all (·.isDigit) = true := by
      rw [hd] at hall; simpa using hall
    exact ⟨d, ds, rfl, hd, hds⟩

/-- Parsing the decimal digits of `n` (followed by a non-digit) yields `n`. -/
theorem parseDigits_natDigits (n : Nat) (rest : List Char)
    (hrest : noDigitHead rest = true) :
    parseDigits (natDigits n ++ rest) 0 = (n, rest) := by
  rw [parseDigits_run _ rest 0 (natDigits_all_digits n) hrest]
  rw [natDigits, natDigitsAux_foldl (n + 1) n 0 (by omega)]
  simp

-- Pointwise reduction lemmas for `parseScalar`.

theorem parseScalar_str (r : List Char) (s : String) (r2 : List Char)
    (h : parseStrAux r [] = some (s, r2)) :
    parseScalar ('"' :: r) = some (.jstr s, r2) := by
  rw [parseScalar.eq_def]
  simp [h]

theorem parseScalar_true (r : List Char) :
    parseScalar ('t' :: 'r' :: 'u' :: 'e' :: r) = some (.jbool true, r) := by
  rw [parseScalar.eq_def]
  simp

theorem parseScalar_false (r : List Char) :
    parseScalar ('f' :: 'a' :: 'l' :: 's' :: 'e' :: r) =
      some (.jbool false, r) := by
  rw [parseScalar.eq_def]
  simp

theorem parseScalar_null (r : List Char) :
    parseScalar ('n' :: 'u' :: 'l' :: 'l' :: r) = some (.jnull, r) := by
  rw [parseScalar.eq_def]
  simp

theorem parseScalar_num {d : Char} (r : List Char) (hd : d.isDigit = true) :
    parseScalar (d :: r) =
      some (.jint ((parseDigits (d :: r) 0).1 : Int),
        (parseDigits (d :: r) 0).2) := by
  obtain ⟨hq, ht, hf, hn, hm, _⟩ := isDigit_facts hd
  rw [parseScalar.eq_def]
  simp [hq, ht, hf, hn, hm, hd]

theorem parseScalar_neg {d : Char} (r : List Char) (hd : d.isDigit = true) :
    parseScalar ('-' :: d :: r) =
      some (.jint (-((parseDigits (d :: r) 0).1 : Int)),
        (parseDigits (d :: r) 0).2) := by
  rw [parseScalar.eq_def]
  simp [hd]

/-- A serialized scalar value never starts with whitespace. -/
theorem skipWs_serializeVal (v : JVal) (t : List Char) :
    skipWs (serializeVal v ++ t) = serializeVal v ++ t := by
  cases v with
  | jstr s =>
    rw [serializeVal, serializeStr]
    simp only [List.cons_append]
    exact skipWs_cons_of_not_ws _ (by decide)
  | jint n =>
    rw [serializeVal, serializeInt]
    by_cases h : n < 0
    · simp only [h, if_true, List.cons_append]
      exact skipWs_cons_of_not_ws _ (by decide)
    · simp only [h, if_false]
      obtain ⟨d, ds, hnd, hdig, _⟩ := natDigits_cons n.toNat
      rw [hnd]
      simp only [List.cons_append]
      exact skipWs_cons_of_not_ws _ (isDigit_facts hdig).2.2.2.2.2
  | jbool b =>
    cases b with
    | true =>
      rw [serializeVal]
      simp only [List.cons_append]
      exact skipWs_cons_of_not_ws _ (by decide)
    | false =>
      rw [serializeVal]
      simp only [List.cons_append]
      exact skipWs_cons_of_not_ws _ (by decide)
  | jnull =>
    rw [serializeVal]
    simp only [List.cons_append]
    exact skipWs_cons_of_not_ws _ (by decide)

/-- The scalar parser inverts the scalar serializer (when what follows does
not start with a digit). -/
theorem parseScalar_serializeVal (v : JVal) (rest : List Char)
    (hrest : noDigitHead rest = true) :
    parseScalar (serializeVal v ++ rest) = some (v, rest) := by
  cases v with
  | jstr s =>
    rw [serializeVal, serializeStr]
    simp only [List.cons_append, List.append_assoc, List.singleton_append]
    exact parseScalar_str _ s rest (parseStrAux_serializeStr s rest)
  | jint n =>
    rw [serializeVal, serializeInt]
    by_cases h : n < 0
    · simp only [h, if_true, List.cons_append]
      obtain ⟨d, ds, hnd, hdig, _⟩ := natDigits_cons n.natAbs
      have hv := parseDigits_natDigits n.natAbs rest hrest
      rw [hnd] at hv ⊢
      simp only [List.cons_append] at hv ⊢
      rw [parseScalar_neg _ hdig, hv]
      have hcast : -((n.natAbs : Nat) : Int) = n := by omega
      rw [hcast]
    · simp only [h, if_false]
      obtain ⟨d, ds, hnd, hdig, _⟩ := natDigits_cons n.toNat
      have hv := parseDigits_natDigits n.toNat rest hrest
      rw [hnd] at hv ⊢
      simp only [List.cons_append] at hv ⊢
      rw [parseScalar_num _ hdig, hv]
      have hcast : ((n.toNat : Nat) : Int) = n := by omega
      rw [hcast]
  | jbool b =>
    cases b with
    | true =>
      rw [serializeVal]
      simp only [List.cons_append]
      exact parseScalar_true rest
    | false =>
      rw [serializeVal]
      simp only [List.cons_append]
      exact parseScalar_false rest
  | jnull =>
    rw [serializeVal]
    simp only [List.cons_append]
    exact parseScalar_null rest

theorem skipWs_ws {c : Char} (l : List Char) (h : isWsChar c = true) :
    skipWs (c :: l) = skipWs l := by
  rw [skipWs_cons, h]
  simp

theorem fieldsToRec_recToFields (r : Record) :
    fieldsToRec (recToFields r) = some r := by
  rw [recToFields]
  simp [fieldsToRec, List.getLast?_concat, List.dropLast_concat]

-- Step lemmas reducing one `parseFields` / `parseItems` layer, driven by
-- equations on the scrutinees.

theorem parseFields_last (F : Nat) {l r1 r2 r3 r4 r5 : List Char}
    {key : String} {v : JVal}
    (h1 : skipWs l = '"' :: r1)
    (h2 : parseStrAux r1 [] = some (key, r2))
    (h3 : skipWs r2 = ':' :: r3)
    (h4 : parseScalar (skipWs r3) = some (v, r4))
    (h5 : skipWs r4 = '}' :: r5) :
    parseFields (F + 1) l = some ([(key, v)], r5) := by
  rw [parseFields.eq_def]
  simp [h1, h2, h3, h4, h5]

theorem parseFields_more (F : Nat) {l r1 r2 r3 r4 r5 : List Char}
    {key : String} {v : JVal}
    (h1 : skipWs l = '"' :: r1)
    (h2 : parseStrAux r1 [] = some (key, r2))
    (h3 : skipWs r2 = ':' :: r3)
    (h4 : parseScalar (skipWs r3) = some (v, r4))
    (h5 : skipWs r4 = ',' :: r5) :
    parseFields (F + 1) l =
      match parseFields F r5 with
      | some (fs, r6) => some ((key, v) :: fs, r6)
      | none => none := by
  rw [parseFields.eq_def]
  simp [h1, h2, h3, h4, h5]

theorem parseItems_last (F : Nat) {l r1 r2 r3 : List Char}
    {fs : List (String × JVal)} {rec : Record}
    (h1 : skipWs l = '{' :: r1)
    (h2 : parseFields (F + 1) r1 = some (fs, r2))
    (h3 : fieldsToRec fs = some rec)
    (h4 : skipWs r2 = ']' :: r3) :
    parseItems (F + 1) l = some ([rec], r3) := by
  rw [parseItems.eq_def]
  simp [h1, h2, h3, h4]

theorem parseItems_more (F : Nat) {l r1 r2 r3 : List Char}
    {fs : List (String × JVal)} {rec : Record}
    (h1 : skipWs l = '{' :: r1)
    (h2 : parseFields (F + 1) r1 = some (fs, r2))
    (h3 : fieldsToRec fs = some rec)
    (h4 : skipWs r2 = ',' :: r3) :
    parseItems (F + 1) l =
      match parseItems F r3 with
      | some (rs, r4) => some (rec :: rs, r4)
      | none => none := by
  rw [parseItems.eq_def]
  simp [h1, h2, h3, h4]

/-- The member parser inverts the member serializer: a serialized nonempty
member list followed by the closing `\n  }` parses back to itself. -/
theorem parseFields_round (fs : List (String × JVal)) :
    ∀ (fuel : Nat) (rest : List Char), fs ≠ [] →
      ('\n' :: (serializeFields fs ++
        '\n' :: ' ' :: ' ' :: '}' :: rest)).length ≤ fuel →
      parseFields fuel ('\n' :: (serializeFields fs ++
        '\n' :: ' ' :: ' ' :: '}' :: rest)) = some (fs, rest) := by
  induction fs with
  | nil => intro fuel rest hne _; exact absurd rfl hne
  | cons f fs ih =>
    intro fuel rest _ hlen
    cases fuel with
    | zero => exact absurd hlen (by simp)
    | succ F =>
      obtain ⟨k, v⟩ := f
      cases fs with
      | nil =>
        have h1 : skipWs ('\n' :: (serializeFields [(k, v)] ++
            '\n' :: ' ' :: ' ' :: '}' :: rest)) =
            '"' :: (escChars k.data ++ '"' :: ':' :: ' ' :: (serializeVal v ++
              '\n' :: ' ' :: ' ' :: '}' :: rest)) := by
          rw [serializeFields, fieldStr, serializeStr]
          simp [skipWs_cons, isWsChar, List.append_assoc]
        have h2 : parseStrAux (escChars k.data ++
            '"' :: (':' :: ' ' :: (serializeVal v ++
              '\n' :: ' ' :: ' ' :: '}' :: rest))) [] =
            some (k, ':' :: ' ' :: (serializeVal v ++
              '\n' :: ' ' :: ' ' :: '}' :: rest)) :=
          parseStrAux_serializeStr k _
        have h3 : skipWs (':' :: ' ' :: (serializeVal v ++
            '\n' :: ' ' :: ' ' :: '}' :: rest)) =
            ':' :: (' ' :: (serializeVal v ++
              '\n' :: ' ' :: ' ' :: '}' :: rest)) :=
          skipWs_cons_of_not_ws _ (by decide)
        have h4 : parseScalar (skipWs (' ' :: (serializeVal v ++
            '\n' :: ' ' :: ' ' :: '}' :: rest))) =
            some (v, '\n' :: ' ' :: ' ' :: '}' :: rest) := by
          rw [skipWs_ws _ (by decide), skipWs_serializeVal]
          exact parseScalar_serializeVal v _ (by simp [noDigitHead])
        have h5 : skipWs ('\n' :: ' ' :: ' ' :: '}' :: rest) =
            '}' :: rest := by
          simp [skipWs_cons, isWsChar]
        exact parseFields_last F h1 h2 h3 h4 h5
      | cons g gs =>
        have hsf : serializeFields ((k, v) :: g :: gs) =
            fieldStr (k, v) ++ ',' :: '\n' :: serializeFields (g :: gs) := by
          rw [serializeFields]
        have h1 : skipWs ('\n' :: (serializeFields ((k, v) :: g :: gs) ++
            '\n' :: ' ' :: ' ' :: '}' :: rest)) =
            '"' :: (escChars k.data ++ '"' :: ':' :: ' ' :: (serializeVal v ++
              ',' :: '\n' :: (serializeFields (g :: gs) ++
                '\n' :: ' ' :: ' ' :: '}' :: rest))) := by
          rw [hsf, fieldStr, serializeStr]
          simp [skipWs_cons, isWsChar, List.append_assoc]
        have h2 : parseStrAux (escChars k.data ++
            '"' :: (':' :: ' ' :: (serializeVal v ++
              ',' :: '\n' :: (serializeFields (g :: gs) ++
                '\n' :: ' ' :: ' ' :: '}' :: rest)))) [] =
            some (k, ':' :: ' ' :: (serializeVal v ++
              ',' :: '\n' :: (serializeFields (g :: gs) ++
                '\n' :: ' ' :: ' ' :: '}' :: rest))) :=
          parseStrAux_serializeStr k _
        have h3 : skipWs (':' :: ' ' :: (serializeVal v ++
            ',' :: '\n' :: (serializeFields (g :: gs) ++
              '\n' :: ' ' :: ' ' :: '}' :: rest))) =
            ':' :: (' ' :: (serializeVal v ++
              ',' :: '\n' :: (serializeFields (g :: gs) ++
                '\n' :: ' ' :: ' ' :: '}' :: rest))) :=
          skipWs_cons_of_not_ws _ (by decide)
        have h4 : parseScalar (skipWs (' ' :: (serializeVal v ++
            ',' :: '\n' :: (serializeFields (g :: gs) ++
              '\n' :: ' ' :: ' ' :: '}' :: rest)))) =
            some (v, ',' :: '\n' :: (serializeFields (g :: gs) ++
              '\n' :: ' ' :: ' ' :: '}' :: rest)) := by
          rw [skipWs_ws _ (by decide), skipWs_serializeVal]
          exact parseScalar_serializeVal v _ (by simp [noDigitHead])
        have h5 : skipWs (',' :: '\n' :: (serializeFields (g :: gs) ++
            '\n' :: ' ' :: ' ' :: '}' :: rest)) =
            ',' :: ('\n' :: (serializeFields (g :: gs) ++
              '\n' :: ' ' :: ' ' :: '}' :: rest)) :=
          skipWs_cons_of_not_ws _ (by decide)
        rw [parseFields_more F h1 h2 h3 h4 h5]
        have hlen' : ('\n' :: (serializeFields (g :: gs) ++
            '\n' :: ' ' :: ' ' :: '}' :: rest)).length ≤ F := by
          rw [hsf] at hlen
          simp only [List.length_cons, List.length_append] at hlen ⊢
          omega
        rw [ih F rest (by simp) hlen']

/-- The item parser inverts the item serializer: a serialized nonempty
record list followed by the closing `\n]` parses back to itself. -/
theorem parseItems_round (l : List Record) :
    ∀ (fuel : Nat) (rest : List Char), l ≠ [] →
      ('\n' :: (serializeItems l ++ '\n' :: ']' :: rest)).length ≤ fuel →
      parseItems fuel ('\n' :: (serializeItems l ++ '\n' :: ']' :: rest)) =
        some (l, rest) := by
  induction l with
  | nil => intro fuel rest hne _; exact absurd rfl hne
  | cons r rs ih =>
    intro fuel rest _ hlen
    cases fuel with
    | zero => exact absurd hlen (by simp)
    | succ F =>
      cases rs with
      | nil =>
        have hsi : serializeItems [r] = recStr r := by
          rw [serializeItems]
        have h1 : skipWs ('\n' :: (serializeItems [r] ++
            '\n' :: ']' :: rest)) =
            '{' :: ('\n' :: (serializeFields (recToFields r) ++
              '\n' :: ' ' :: ' ' :: '}' :: ('\n' :: ']' :: rest))) := by
          rw [hsi, recStr]
          simp [skipWs_cons, isWsChar, List.append_assoc]
        have hlen2 : ('\n' :: (serializeFields (recToFields r) ++
            '\n' :: ' ' :: ' ' :: '}' :: ('\n' :: ']' :: rest))).length ≤
            F + 1 := by
          rw [hsi, recStr] at hlen
          simp only [List.length_cons, List.length_append] at hlen ⊢
          omega
        have h2 : parseFields (F + 1)
            ('\n' :: (serializeFields (recToFields r) ++
              '\n' :: ' ' :: ' ' :: '}' :: ('\n' :: ']' :: rest))) =
            some (recToFields r, '\n' :: ']' :: rest) :=
          parseFields_round (recToFields r) (F + 1) ('\n' :: ']' :: rest)
            (by simp [recToFields]) hlen2
        have h3 : fieldsToRec (recToFields r) = some r :=
          fieldsToRec_recToFields r
        have h4 : skipWs ('\n' :: ']' :: rest) = ']' :: rest := by
          simp [skipWs_cons, isWsChar]
        exact parseItems_last F h1 h2 h3 h4
      | cons s ss =>
        have hsi : serializeItems (r :: s :: ss) =
            recStr r ++ ',' :: '\n' :: serializeItems (s :: ss) := by
          rw [serializeItems]
        have h1 : skipWs ('\n' :: (serializeItems (r :: s :: ss) ++
            '\n' :: ']' :: rest)) =
            '{' :: ('\n' :: (serializeFields (recToFields r) ++
              '\n' :: ' ' :: ' ' :: '}' ::
                (',' :: '\n' :: (serializeItems (s :: ss) ++
                  '\n' :: ']' :: rest)))) := by
          rw [hsi, recStr]
          simp [skipWs_cons, isWsChar, List.append_assoc]
        have hlen2 : ('\n' :: (serializeFields (recToFields r) ++
            '\n' :: ' ' :: ' ' :: '}' ::
              (',' :: '\n' :: (serializeItems (s :: ss) ++
                '\n' :: ']' :: rest)))).length ≤ F + 1 := by
          rw [hsi, recStr] at hlen
          simp only [List.length_cons, List.length_append] at hlen ⊢
          omega
        have h2 : parseFields (F + 1)
            ('\n' :: (serializeFields (recToFields r) ++
              '\n' :: ' ' :: ' ' :: '}' ::
                (',' :: '\n' :: (serializeItems (s :: ss) ++
                  '\n' :: ']' :: rest)))) =
            some (recToFields r,
              ',' :: '\n' :: (serializeItems (s :: ss) ++
                '\n' :: ']' :: rest)) :=
          parseFields_round (recToFields r) (F + 1) _
            (by simp [recToFields]) hlen2
        have h3 : fieldsToRec (recToFields r) = some r :=
          fieldsToRec_recToFields r
        have h4 : skipWs (',' :: '\n' :: (serializeItems (s :: ss) ++
            '\n' :: ']' :: rest)) =
            ',' :: ('\n' :: (serializeItems (s :: ss) ++
              '\n' :: ']' :: rest)) :=
          skipWs_cons_of_not_ws _ (by decide)
        rw [parseItems_more F h1 h2 h3 h4]
        have hlen' : ('\n' :: (serializeItems (s :: ss) ++
            '\n' :: ']' :: rest)).length ≤ F := by
          rw [hsi, recStr] at hlen
          simp only [List.length_cons, List.length_append] at hlen ⊢
          omega
        rw [ih F rest (by simp) hlen']

/-- The serialized store content is never the empty string. -/
theorem serializeRecords_ne_empty (l : List Record) :
    serializeRecords l ≠ "" := by
  cases l with
  | nil => decide
  | cons r rs =>
    rw [serializeRecords]
    intro h
    have : ('[' :: '\n' :: serializeItems (r :: rs) ++ ['\n', ']']) =
        ([] : List Char) := congrArg String.data h
    simp at this

theorem parseRecords_step {s : String} {r1 r2 Z : List Char}
    {rs : List Record}
    (h1 : skipWs s.data = '[' :: r1)
    (h2 : skipWs r1 = '{' :: Z)
    (h3 : parseItems s.length r1 = some (rs, r2))
    (h4 : skipWs r2 = []) :
    parseRecords s = .ok rs := by
  rw [parseRecords.eq_def]
  simp [h1, h2, h3, h4]

/-- Core round trip: parsing the pretty-printed store text of any collection
reproduces the collection. -/
theorem parseRecords_serializeRecords (l : List Record) :
    parseRecords (serializeRecords l) = .ok l := by
  cases l with
  | nil => decide
  | cons r rs =>
    rw [serializeRecords]
    have hhead : ∃ Z, skipWs ('\n' :: (serializeItems (r :: rs) ++
        '\n' :: ']' :: [])) = '{' :: Z := by
      cases rs with
      | nil =>
        rw [serializeItems, recStr]
        simp [skipWs_cons, isWsChar, List.append_assoc]
      | cons s ss =>
        rw [serializeItems, recStr]
        simp [skipWs_cons, isWsChar, List.append_assoc]
    obtain ⟨Z, hskip⟩ := hhead
    have h1 : skipWs ((⟨'[' :: '\n' :: serializeItems (r :: rs) ++
        ['\n', ']']⟩ : String).data) =
        '[' :: ('\n' :: (serializeItems (r :: rs) ++ '\n' :: ']' :: [])) := by
      simp [skipWs_cons, isWsChar]
    have hitems := parseItems_round (r :: rs)
      ((⟨'[' :: '\n' :: serializeItems (r :: rs) ++
        ['\n', ']']⟩ : String).length) [] (by simp)
      (by simp [String.length])
    have h4 : skipWs ([] : List Char) = [] := by rw [skipWs.eq_def]
    exact parseRecords_step h1 hskip hitems h4

-- ===========================================================================
-- Claim theorems: persistence
-- ===========================================================================

/-- C8: persisting a collection with `writeData` and loading it back with
`readData` reproduces exactly the same sequence of records, in the same
order with the same field values. -/
theorem save_load_round_trip (records : List Record) :
    readData (writeData records) = .ok records := by
  have hne := serializeRecords_ne_empty records
  rw [writeData]
  simp [readData, hne, parseRecords_serializeRecords records]

/-- C5: a missing store file loads as the empty collection (not a failure)
and the server starts; an existing store whose content does not parse is a
ParseError, and startup then exits with code 1 — nonzero — instead of
starting to serve. -/
theorem load_failure_handling :
    readData .absent = .ok [] ∧
    initializeServer .absent = .started [] ∧
    (∀ s e, s ≠ "" → parseRecords s = .error e →
      readData (.present s) = .error .ParseError ∧
      initializeServer (.present s) = .exited 1 ∧ (1 : Nat) ≠ 0) := by
  refine ⟨rfl, rfl, ?_⟩
  intro s e hne hp
  have hr : readData (.present s) = .error .ParseError := by
    simp [readData, hne, hp]
  exact ⟨hr, by simp [initializeServer, hr], by decide⟩

theorem load_failure_handling_witness :
    ("\x7b" : String) ≠ "" ∧
    parseRecords "\x7b" = .error "malformed store content" ∧
    readData (.present "\x7b") = .error .ParseError ∧
    initializeServer (.present "\x7b") = .exited 1 :=
  ⟨by decide, by decide,
    (load_failure_handling.2.2 "\x7b" "malformed store content"
      (by decide) (by decide)).1,
    (load_failure_handling.2.2 "\x7b" "malformed store content"
      (by decide) (by decide)).2.1⟩

/-- C10: an existing but empty (zero-length) store file loads as the empty
collection, even though the empty string is not parseable JSON; exactly the
nonempty unparsable contents are load failures. -/
theorem empty_store_load :
    readData (.present "") = .ok [] ∧
    (∃ e, parseRecords "" = .error e) ∧
    (∀ s, readData (.present s) = .error .ParseError ↔
      (s ≠ "" ∧ ∃ e, parseRecords s = .error e)) := by
  refine ⟨by decide, ⟨"malformed store content", by decide⟩, ?_⟩
  intro s
  constructor
  · intro h
    by_cases hne : s = ""
    · subst hne
      simp [readData] at h
    · refine ⟨hne, ?_⟩
      cases hp : parseRecords s with
      | ok rs => simp [readData, hne, hp] at h
      | error e => exact ⟨e, rfl⟩
  · rintro ⟨hne, e, hp⟩
    simp [readData, hne, hp]
